import Mathlib

/-!
Verification development for the bounded-depth site crawler (`src/main.rs`).

The Rust source is shallowly embedded: pure helpers (`save_to_file`'s
filename derivation, `parse_links`'s link collection) become Lean functions
over `String`/`List Char`, and the stateful traversal (`crawl`, the seed
loop in `main`) becomes a fuel-indexed recursive function threading the
visited set (`Finset String`) and emitting an event trace.  External
collaborators excluded by the design (HTTP transport, HTML parser, the
`url` crate's parse/join) are oracles carried in an environment record;
the parts of the `url` crate's documented contract that the source relies
on (`Url::domain` is the host only when it is a domain name, `as_str` /
`to_string` return the serialization, `set_fragment(None)` clears the
fragment) are embedded directly in the `Url` model below.
-/

namespace Crawler

/-- Host component of a parsed URL.  The `url` crate distinguishes domain
names from IP hosts: `Url::domain()` returns the host string only for
`Host::Domain`, and `None` for IP hosts. -/
inductive Host where
  | domain (d : String)
  | ipv4 (a : String)
  | ipv6 (a : String)
deriving DecidableEq, Repr

/-- A parsed absolute URL (the components of `url::Url` that `main.rs`
reads or writes). -/
structure Url where
  scheme : String
  host : Option Host
  port : Option Nat
  path : String
  query : Option String
  fragment : Option String
deriving DecidableEq, Repr

def hostToString : Host → String
  | .domain d => d
  | .ipv4 a => a
  | .ipv6 a => "[" ++ a ++ "]"

/-- Serialization of a URL: what `url.as_str()` / `url.to_string()` return
for the http(s) URLs the crawler handles. -/
def urlToString (u : Url) : String :=
  u.scheme ++ "://" ++
    (match u.host with | some h => hostToString h | none => "") ++
    (match u.port with | some p => ":" ++ toString p | none => "") ++
    u.path ++
    (match u.query with | some q => "?" ++ q | none => "") ++
    (match u.fragment with | some f => "#" ++ f | none => "")

/-- `url::Url::domain()`: the host, but only when it is a domain name; IP
hosts and missing hosts give `none`. -/
def Url.domain (u : Url) : Option String :=
  match u.host with
  | some (.domain d) => some d
  | _ => none

/-- `absolute_url.set_fragment(None)` (main.rs line 171). -/
def set_fragment_none (u : Url) : Url :=
  { u with fragment := none }

/-! ## Bucket filename derivation (`save_to_file`, main.rs lines 115-139)

The Rust code works on the serialized URL string:
`replace("https://", "")`, then `replace("http://", "")`, then each char
that is neither alphanumeric nor `'.'` becomes `'_'`, then split on `'_'`,
drop empty segments, and join the first `MAX_SEGMENTS` (or all, if fewer)
segments with `'_'`.  We embed the string pipeline over `List Char`.
`String::replace` replaces every non-overlapping occurrence of the
pattern, scanning left to right; `replaceAllFuel` mirrors that scan, with
a fuel argument (always instantiated to the text length, which the scan
never exceeds) so that the recursion is structural. -/

def replaceAllFuel (pat repl : List Char) : Nat → List Char → List Char
  | 0, text => text
  | fuel + 1, text =>
    match text with
    | [] => []
    | c :: cs =>
      if pat ≠ [] ∧ pat.isPrefixOf (c :: cs) then
        repl ++ replaceAllFuel pat repl fuel ((c :: cs).drop pat.length)
      else
        c :: replaceAllFuel pat repl fuel cs

/-- Rust `str::replace`: replace every non-overlapping occurrence of
`pat` (scanning left to right) by `repl`. -/
def replaceAll (pat repl text : List Char) : List Char :=
  replaceAllFuel pat repl text.length text

/-- The character cleanup `|c: char| !c.is_alphanumeric() && !c.eq(&'.')`
(main.rs line 125); URL serializations here are ASCII, where Rust's
Unicode `is_alphanumeric` agrees with `Char.isAlphanum`. -/
def cleanChar (c : Char) : Char :=
  if !c.isAlphanum && !(c == '.') then '_' else c

def httpsPat : List Char := "https://".data

def httpPat : List Char := "http://".data

/-- `raw_filename` (main.rs lines 121-125): scheme substrings removed,
then the character cleanup. -/
def raw_filename (s : String) : List Char :=
  (replaceAll httpPat [] (replaceAll httpsPat [] s.data)).map cleanChar

/-- `str::split('_')`: the chunks between separator characters, empties
included. -/
def splitChar (sep : Char) : List Char → List (List Char)
  | [] => [[]]
  | c :: cs =>
    if c = sep then
      [] :: splitChar sep cs
    else
      match splitChar sep cs with
      | [] => [[c]]
      | s :: ss => (c :: s) :: ss

/-- `segments` (main.rs line 128): split `raw_filename` on `'_'` and keep
the non-empty chunks. -/
def url_segments (s : String) : List (List Char) :=
  (splitChar '_' (raw_filename s)).filter (fun seg => seg ≠ [])

/-- `segments.join("_")`. -/
def joinUnderscore : List (List Char) → List Char
  | [] => []
  | [s] => s
  | s :: s2 :: rest => s ++ '_' :: joinUnderscore (s2 :: rest)

def MAX_SEGMENTS : Nat := 3

/-- `filename` (main.rs lines 131-137): all segments when there are at
most `MAX_SEGMENTS` of them, otherwise only the first `MAX_SEGMENTS`. -/
def save_filename (s : String) : String :=
  let segs := url_segments s
  if segs.length ≤ MAX_SEGMENTS then
    String.mk (joinUnderscore segs)
  else
    String.mk (joinUnderscore (segs.take MAX_SEGMENTS))

/-! ## Link collection (`parse_links`, main.rs lines 159-190)

The HTML parser is an external collaborator: a parsed document is
represented by the data the crawler reads from it — the inner HTML of the
first `<main>` element (if any) and the `href` attribute values of the
`a[href]` elements, in document order.  `base_url.join(href)` is the `url`
crate's resolution, carried as an oracle.

`links_to_visit.sort()` sorts `Vec<Url>` by `Url`'s `Ord`, which compares
serializations; `links_to_visit.dedup()` removes the elements equal
(`Url`'s `PartialEq`, again on serializations) to the last retained
element. -/

structure Doc where
  main_inner : Option String
  hrefs : List String
deriving DecidableEq, Repr

/-- `Vec::dedup` keyed by `k`: drop every element whose key equals the key
of the last element retained (so only adjacent duplicates collapse). -/
def dedupKeyedAux {α β : Type} [DecidableEq β] (k : α → β) (prev : β) : List α → List α
  | [] => []
  | b :: l => if k b = prev then dedupKeyedAux k prev l else b :: dedupKeyedAux k (k b) l

def dedupKeyed {α β : Type} [DecidableEq β] (k : α → β) : List α → List α
  | [] => []
  | a :: l => a :: dedupKeyedAux k (k a) l

/-- `Vec::dedup` on strings (used on `start_urls`, main.rs line 65):
removes only adjacent duplicates. -/
def dedup (l : List String) : List String :=
  dedupKeyed id l

/-- Ordering of `url::Url` values: by serialization. -/
def urlLe (a b : Url) : Prop :=
  urlToString a ≤ urlToString b

instance : DecidableRel urlLe := fun a b =>
  decidable_of_iff ((urlToString a).toList ≤ (urlToString b).toList)
    String.le_iff_toList_le.symm

instance : IsTotal Url urlLe :=
  ⟨fun a b => le_total (urlToString a) (urlToString b)⟩

instance : IsTrans Url urlLe :=
  ⟨fun _ _ _ h h' => le_trans h h'⟩

/-- The body of the `for element in document.select(..)` loop (main.rs
lines 164-186): resolve the href against the base, clear the fragment,
keep the link only when `absolute_url.domain() == base_url.domain()`;
hrefs that fail to resolve are skipped. -/
def resolveHref (join : Url → String → Option Url) (base : Url) (href : String) : Option Url :=
  match join base href with
  | some u =>
    let u' := set_fragment_none u
    if u'.domain = base.domain then some u' else none
  | none => none

/-- `links_to_visit` as it stands after the collection loop, `sort()` and
`dedup()` (main.rs lines 162-190). -/
def links_to_visit (join : Url → String → Option Url) (base : Url) (hrefs : List String) :
    List Url :=
  dedupKeyed urlToString (List.insertionSort urlLe (hrefs.filterMap (resolveHref join base)))

/-! ## The traversal engine (`crawl` and `main`, main.rs lines 30-113)

The transport collaborator is an oracle from the requested serialization
to a result: a transport error, or a status code with the (parsed) body.
`crawl` threads the shared visited set (`Finset String`, membership test
and insert on the serialization, exactly as the Rust code checks
`contains(url.as_str())` and inserts `url.to_string()`), and emits a trace
of observable events: one `fetched` per `client.get(..).send()` call
(tagged with the task's depth), `fetchFailed` for a transport error or a
non-success status, and `recorded` for each append `save_to_file`
performs.  The recursion of the Rust code terminates because depth grows
by 1 per hop and is capped by `max_depth`; the embedding makes that
explicit with a fuel argument that `crawl` instantiates to
`max_depth + 1 - depth`, which the guarded recursion never exhausts. -/

inductive FetchResult where
  | transportError
  | response (status : Nat) (body : Doc)
deriving DecidableEq, Repr

/-- `reqwest::StatusCode::is_success()`: 2xx. -/
def is_success (status : Nat) : Bool :=
  200 ≤ status && status < 300

structure Env where
  parseUrl : String → Option Url
  fetch : String → FetchResult
  join : Url → String → Option Url

inductive Event where
  | fetched (u : Url) (depth : Nat)
  | fetchFailed (u : Url)
  | recorded (u : Url) (file : String) (data : String)
deriving DecidableEq, Repr

/-- The header block `save_to_file` writes before the content
(main.rs line 144). -/
def entryHeader (u : Url) : String :=
  "\n\n========================================\nURL: " ++ urlToString u ++
    "\n========================================\n"

/-- `save_to_file` (main.rs lines 115-149) as its observable appends: when
the document has a `<main>` element, one append of the header plus that
element's inner HTML, to the bucket named `save_filename`; otherwise
nothing. -/
def save_to_file (u : Url) (doc : Doc) : List Event :=
  match doc.main_inner with
  | none => []
  | some content => [.recorded u (save_filename (urlToString u)) (entryHeader u ++ content)]

/-- `crawl` (main.rs lines 77-113) with explicit fuel; the children loop
at the end of `parse_links` (lines 192-198) is the fold, run at
`depth + 1`. -/
def crawlG (env : Env) (max_depth : Nat) : Nat → Url → Finset String → Nat →
    Finset String × List Event
  | 0, _, visited, _ => (visited, [])
  | gas + 1, url, visited, depth =>
    if depth > max_depth then (visited, [])
    else if urlToString url ∈ visited then (visited, [])
    else
      let visited1 := insert (urlToString url) visited
      match env.fetch (urlToString url) with
      | .transportError => (visited1, [.fetched url depth, .fetchFailed url])
      | .response status body =>
        if is_success status then
          let links := links_to_visit env.join url body.hrefs
          let r := links.foldl
            (fun acc l =>
              let r := crawlG env max_depth gas l acc.1 (depth + 1)
              (r.1, acc.2 ++ r.2))
            (visited1, [])
          (r.1, .fetched url depth :: (save_to_file url body ++ r.2))
        else (visited1, [.fetched url depth, .fetchFailed url])

/-- `crawl(client, url, visited, depth, max_depth)`. -/
def crawl (env : Env) (max_depth : Nat) (url : Url) (visited : Finset String) (depth : Nat) :
    Finset String × List Event :=
  crawlG env max_depth (max_depth + 1 - depth) url visited depth

/-- `parse_links` (main.rs lines 151-199): collect, filter, sort and
dedup the links, then crawl each at `depth + 1`. -/
def parse_links (env : Env) (max_depth : Nat) (base : Url) (body : Doc)
    (visited : Finset String) (depth : Nat) : Finset String × List Event :=
  (links_to_visit env.join base body.hrefs).foldl
    (fun acc l =>
      let r := crawl env max_depth l acc.1 (depth + 1)
      (r.1, acc.2 ++ r.2))
    (visited, [])

/-- The depth-0 task list of a run: `main` calls `start_urls.dedup()`
(main.rs line 65) and then crawls each remaining seed string once. -/
def seed_tasks (start_urls : List String) : List String :=
  dedup start_urls

/-- The seed loop of `main` (main.rs lines 70-72): parse each seed and
crawl it at depth 0; `Url::parse(&url)?` aborts the run on a parse
failure. -/
def seedLoop (env : Env) (max_depth : Nat) : List String → Finset String →
    Finset String × List Event
  | [], visited => (visited, [])
  | s :: ss, visited =>
    match env.parseUrl s with
    | none => (visited, [])
    | some u =>
      let r := crawl env max_depth u visited 0
      let r2 := seedLoop env max_depth ss r.1
      (r2.1, r.2 ++ r2.2)

/-- A whole run of `main` (main.rs lines 61-74): dedup the seeds, start
from an empty visited set, crawl each seed at depth 0. -/
def mainRun (env : Env) (start_urls : List String) (max_depth : Nat) :
    Finset String × List Event :=
  seedLoop env max_depth (seed_tasks start_urls) ∅

/-- The serializations of the addresses sent to the transport, in order. -/
def fetchedStrings (evs : List Event) : List String :=
  evs.filterMap (fun e =>
    match e with
    | .fetched u _ => some (urlToString u)
    | _ => none)

/-! ## A concrete run environment

Small closed instances of the oracles, used to evaluate the model on
concrete inputs: a site `x.test` whose pages are served by `fetchDemo`,
and parse/join oracles defined pointwise on the strings that appear in
the statements below. -/

/-- `https://x.test/a#f` as the `url` crate parses it (the fragment is
kept by `Url::parse`). -/
def uAfrag : Url :=
  { scheme := "https", host := some (.domain "x.test"), port := none,
    path := "/a", query := none, fragment := some "f" }

/-- `https://x.test/a`. -/
def uAplain : Url :=
  { scheme := "https", host := some (.domain "x.test"), port := none,
    path := "/a", query := none, fragment := none }

/-- `https://x.test/nomain`: a page whose document has no `<main>`. -/
def uNomain : Url :=
  { scheme := "https", host := some (.domain "x.test"), port := none,
    path := "/nomain", query := none, fragment := none }

/-- `https://x.test/fail`: a page answering 404. -/
def uFail : Url :=
  { scheme := "https", host := some (.domain "x.test"), port := none,
    path := "/fail", query := none, fragment := none }

/-- `http://192.168.0.1/y`: a base page on an IP host. -/
def uIpBase : Url :=
  { scheme := "http", host := some (.ipv4 "192.168.0.1"), port := none,
    path := "/y", query := none, fragment := none }

/-- `http://10.0.0.1/x`: a link target on a different IP host. -/
def uIpLink : Url :=
  { scheme := "http", host := some (.ipv4 "10.0.0.1"), port := none,
    path := "/x", query := none, fragment := none }

def docNomain : Doc := { main_inner := none, hrefs := [] }

def parseDemo (s : String) : Option Url :=
  if s = "https://x.test/a#f" then some uAfrag
  else if s = "https://x.test/a" then some uAplain
  else if s = "https://x.test/nomain" then some uNomain
  else if s = "https://x.test/fail" then some uFail
  else none

def fetchDemo (s : String) : FetchResult :=
  if s = "https://x.test/nomain" then .response 200 docNomain
  else if s = "https://x.test/fail" then .response 404 docNomain
  else .transportError

def joinDemo (base : Url) (href : String) : Option Url :=
  if href = "http://10.0.0.1/x" ∧ base = uIpBase then some uIpLink
  else if href = "/a" then some { uAplain with fragment := base.fragment }
  else if href = "/nomain" then some uNomain
  else none

def envDemo : Env :=
  { parseUrl := parseDemo, fetch := fetchDemo, join := joinDemo }

/-! ## Trace invariants

`EvProps max_depth v0 vf evs` collects what one segment of the event
trace satisfies, relative to the visited set `v0` at its start and `vf`
at its end; `CrawlInv` packages it with monotonicity of the visited
set. -/

def EvProps (max_depth : Nat) (v0 vf : Finset String) (evs : List Event) : Prop :=
  (fetchedStrings evs).Nodup ∧
    (∀ s ∈ fetchedStrings evs, s ∈ vf ∧ s ∉ v0) ∧
    (∀ u d, Event.fetched u d ∈ evs → d ≤ max_depth) ∧
    (∀ u k c, Event.recorded u k c ∈ evs → urlToString u ∉ v0)

def CrawlInv (max_depth : Nat) (v0 : Finset String) (r : Finset String × List Event) : Prop :=
  v0 ⊆ r.1 ∧ EvProps max_depth v0 r.1 r.2

/-! # Theorems -/

/-! ## `Vec::dedup` -/

theorem dedupKeyedAux_sublist {α β : Type} [DecidableEq β] (k : α → β) :
    ∀ (l : List α) (p : β), List.Sublist (dedupKeyedAux k p l) l := by
  intro l
  induction l with
  | nil => intro p; simp [dedupKeyedAux]
  | cons b l ih =>
    intro p
    simp only [dedupKeyedAux]
    by_cases hb : k b = p
    · rw [if_pos hb]
      exact (ih p).trans (List.sublist_cons_self b l)
    · rw [if_neg hb]
      exact (ih (k b)).cons₂ b

theorem dedupKeyed_sublist {α β : Type} [DecidableEq β] (k : α → β) (l : List α) :
    List.Sublist (dedupKeyed k l) l := by
  cases l with
  | nil => simp [dedupKeyed]
  | cons a l => exact (dedupKeyedAux_sublist k l (k a)).cons₂ a

theorem dedupKeyedAux_chain {α β : Type} [DecidableEq β] (k : α → β) :
    ∀ (l : List α) (p : β),
      List.Chain' (fun x y => k x ≠ k y) (dedupKeyedAux k p l) ∧
        (∀ h, (dedupKeyedAux k p l).head? = some h → k h ≠ p) := by
  intro l
  induction l with
  | nil => intro p; simp [dedupKeyedAux]
  | cons b l ih =>
    intro p
    simp only [dedupKeyedAux]
    by_cases hb : k b = p
    · rw [if_pos hb]
      refine ⟨(ih p).1, ?_⟩
      intro h hh
      exact (ih p).2 h hh
    · rw [if_neg hb]
      refine ⟨?_, ?_⟩
      · rw [List.chain'_cons']
        exact ⟨fun h hh => Ne.symm ((ih (k b)).2 h hh), (ih (k b)).1⟩
      · intro h hh
        simp only [List.head?_cons, Option.some.injEq] at hh
        subst hh
        exact hb

theorem dedupKeyed_chain {α β : Type} [DecidableEq β] (k : α → β) (l : List α) :
    List.Chain' (fun x y => k x ≠ k y) (dedupKeyed k l) := by
  cases l with
  | nil => simp [dedupKeyed]
  | cons a l =>
    simp only [dedupKeyed]
    rw [List.chain'_cons']
    exact ⟨fun h hh => Ne.symm ((dedupKeyedAux_chain k l (k a)).2 h hh),
      (dedupKeyedAux_chain k l (k a)).1⟩

theorem map_dedupKeyedAux {α β : Type} [DecidableEq β] (k : α → β) :
    ∀ (l : List α) (p : β), (dedupKeyedAux k p l).map k = dedupKeyedAux id p (l.map k) := by
  intro l
  induction l with
  | nil => intro p; simp [dedupKeyedAux]
  | cons b l ih =>
    intro p
    simp only [dedupKeyedAux, List.map_cons, id]
    by_cases hb : k b = p
    · rw [if_pos hb, if_pos hb]
      exact ih p
    · rw [if_neg hb, if_neg hb, List.map_cons]
      exact congrArg (k b :: ·) (ih (k b))

theorem map_dedupKeyed {α β : Type} [DecidableEq β] (k : α → β) (l : List α) :
    (dedupKeyed k l).map k = dedupKeyed id (l.map k) := by
  cases l with
  | nil => simp [dedupKeyed]
  | cons a l =>
    simp only [dedupKeyed, List.map_cons, id]
    exact congrArg (k a :: ·) (map_dedupKeyedAux k l (k a))

/-! ## Sorting and the link list -/

theorem sorted_map_sort (l : List Url) :
    List.Sorted (· ≤ ·) ((List.insertionSort urlLe l).map urlToString) :=
  List.Pairwise.map urlToString (fun _ _ h => h) (List.sorted_insertionSort urlLe l)

theorem perm_map_sort (l : List Url) :
    ((List.insertionSort urlLe l).map urlToString).Perm (l.map urlToString) :=
  (List.perm_insertionSort urlLe l).map urlToString

theorem chain'_lt_of_le_of_ne :
    ∀ {l : List String}, List.Chain' (· ≤ ·) l → List.Chain' (· ≠ ·) l →
      List.Chain' (· < ·) l := by
  intro l
  induction l with
  | nil => simp
  | cons a l ih =>
    intro h1 h2
    rw [List.chain'_cons'] at h1 h2 ⊢
    exact ⟨fun h hh => lt_of_le_of_ne (h1.1 h hh) (h2.1 h hh), ih h1.2 h2.2⟩

theorem dedupId_chain (m : List String) : List.Chain' (· ≠ ·) (dedupKeyed id m) := by
  have h := dedupKeyed_chain id m
  simpa using h

theorem dedupId_sorted_nodup (m : List String) (hm : List.Sorted (· ≤ ·) m) :
    List.Sorted (· ≤ ·) (dedupKeyed id m) ∧ (dedupKeyed id m).Nodup := by
  have hsorted : List.Sorted (· ≤ ·) (dedupKeyed id m) :=
    List.Pairwise.sublist (dedupKeyed_sublist id m) hm
  have hlt : List.Chain' (· < ·) (dedupKeyed id m) :=
    chain'_lt_of_le_of_ne hsorted.chain' (dedupId_chain m)
  have hpw : (dedupKeyed id m).Pairwise (· < ·) := List.chain'_iff_pairwise.mp hlt
  exact ⟨hsorted, hpw.imp (fun h => ne_of_lt h)⟩

theorem map_links_to_visit (j : Url → String → Option Url) (b : Url) (hrefs : List String) :
    (links_to_visit j b hrefs).map urlToString =
      dedupKeyed id ((List.insertionSort urlLe (hrefs.filterMap (resolveHref j b))).map
        urlToString) :=
  map_dedupKeyed urlToString _

theorem resolveHref_fragment {j : Url → String → Option Url} {b : Url} {h : String} {u : Url}
    (hr : resolveHref j b h = some u) : u.fragment = none := by
  unfold resolveHref at hr
  cases hj : j b h with
  | none => rw [hj] at hr; exact absurd hr (by simp)
  | some w =>
    rw [hj] at hr
    dsimp at hr
    by_cases hd : (set_fragment_none w).domain = b.domain
    · rw [if_pos hd] at hr
      cases hr
      rfl
    · rw [if_neg hd] at hr
      exact absurd hr (by simp)

theorem resolveHref_domain {j : Url → String → Option Url} {b : Url} {h : String} {u : Url}
    (hr : resolveHref j b h = some u) : u.domain = b.domain := by
  unfold resolveHref at hr
  cases hj : j b h with
  | none => rw [hj] at hr; exact absurd hr (by simp)
  | some w =>
    rw [hj] at hr
    dsimp at hr
    by_cases hd : (set_fragment_none w).domain = b.domain
    · rw [if_pos hd] at hr
      cases hr
      exact hd
    · rw [if_neg hd] at hr
      exact absurd hr (by simp)

theorem mem_links_to_visit {j : Url → String → Option Url} {b : Url} {hrefs : List String}
    {u : Url} (hu : u ∈ links_to_visit j b hrefs) :
    ∃ h ∈ hrefs, resolveHref j b h = some u := by
  have h1 : u ∈ List.insertionSort urlLe (hrefs.filterMap (resolveHref j b)) :=
    (dedupKeyed_sublist urlToString _).subset hu
  have h2 : u ∈ hrefs.filterMap (resolveHref j b) :=
    (List.perm_insertionSort urlLe _).subset h1
  simpa [List.mem_filterMap] using h2

/-- C5: link extraction is a deterministic function of the document and
base address; its output has no duplicates (as serialized URLs, which is
`Url` equality), every link's fragment is cleared, and the final ordering
is sorted-then-unique, independent of the order in which the hrefs appear
in the document. -/
theorem c5_link_extraction (j : Url → String → Option Url) (b : Url) (h1 h2 : List String)
    (hp : h1.Perm h2) :
    (links_to_visit j b h1).map urlToString = (links_to_visit j b h2).map urlToString ∧
      ((links_to_visit j b h1).map urlToString).Nodup ∧
      (∀ u ∈ links_to_visit j b h1, u.fragment = none) ∧
      List.Sorted (· ≤ ·) ((links_to_visit j b h1).map urlToString) := by
  have hperm :
      ((List.insertionSort urlLe (h1.filterMap (resolveHref j b))).map urlToString).Perm
        ((List.insertionSort urlLe (h2.filterMap (resolveHref j b))).map urlToString) :=
    (perm_map_sort _).trans
      (((hp.filterMap (resolveHref j b)).map urlToString).trans (perm_map_sort _).symm)
  have heq := List.eq_of_perm_of_sorted hperm (sorted_map_sort _) (sorted_map_sort _)
  refine ⟨?_, ?_, ?_, ?_⟩
  · rw [map_links_to_visit, map_links_to_visit, heq]
  · rw [map_links_to_visit]
    exact (dedupId_sorted_nodup _ (sorted_map_sort _)).2
  · intro u hu
    obtain ⟨h, _, hr⟩ := mem_links_to_visit hu
    exact resolveHref_fragment hr
  · rw [map_links_to_visit]
    exact (dedupId_sorted_nodup _ (sorted_map_sort _)).1

/-- Witness for C5 at a concrete document with its hrefs permuted. -/
theorem c5_link_extraction_witness :
    (links_to_visit joinDemo uAplain ["/nomain", "/a"]).map urlToString =
        (links_to_visit joinDemo uAplain ["/a", "/nomain"]).map urlToString ∧
      ((links_to_visit joinDemo uAplain ["/nomain", "/a"]).map urlToString).Nodup ∧
      uAplain.fragment = none ∧
      List.Sorted (· ≤ ·) ((links_to_visit joinDemo uAplain ["/nomain", "/a"]).map urlToString) := by
  have h := c5_link_extraction joinDemo uAplain ["/nomain", "/a"] ["/a", "/nomain"] (by decide)
  have hlist : links_to_visit joinDemo uAplain ["/nomain", "/a"] = [uAplain, uNomain] := by
    decide
  exact ⟨h.1, h.2.1, h.2.2.1 uAplain (by rw [hlist]; exact List.mem_cons_self uAplain _),
    h.2.2.2⟩

/-- C4 as stated is false on the code: `parse_links` compares
`Url::domain()`, which is `None` for every IP host, so a link to
`http://10.0.0.1/x` found on the page `http://192.168.0.1/y` is kept even
though the two hosts differ. -/
theorem c4_counterexample :
    links_to_visit joinDemo uIpBase ["http://10.0.0.1/x"] = [uIpLink] ∧
      uIpLink.host ≠ uIpBase.host := by
  constructor
  · decide
  · decide

/-- C4 amended: a link is kept iff its `Url::domain()` equals the base's
`Url::domain()`.  For domain-named hosts that is exactly host equality,
but `domain()` is `None` for IP (or absent) hosts, so any link whose host
is not a domain name is kept whenever the base's host is also not a
domain name, even if the two hosts differ. -/
theorem c4_domain_filter_amended :
    (∀ (j : Url → String → Option Url) (b : Url) (hrefs : List String) (u : Url),
        u ∈ links_to_visit j b hrefs → u.domain = b.domain) ∧
      (∀ (j : Url → String → Option Url) (b : Url) (h : String) (u : Url),
        j b h = some u → (set_fragment_none u).domain = b.domain →
          set_fragment_none u ∈ links_to_visit j b [h]) ∧
      (∀ (a b : Url) (da db : String), a.host = some (.domain da) →
        b.host = some (.domain db) → (a.domain = b.domain ↔ a.host = b.host)) := by
  refine ⟨?_, ?_, ?_⟩
  · intro j b hrefs u hu
    obtain ⟨h, _, hr⟩ := mem_links_to_visit hu
    exact resolveHref_domain hr
  · intro j b h u hj hd
    have hres : resolveHref j b h = some (set_fragment_none u) := by
      unfold resolveHref
      rw [hj]
      dsimp
      rw [if_pos hd]
    simp [links_to_visit, List.filterMap, hres, List.insertionSort, dedupKeyed, dedupKeyedAux]
  · intro a b da db ha hb
    simp [Url.domain, ha, hb]

/-- Witness for C4's amended statement at the IP-host pair and at a
domain-named pair. -/
theorem c4_domain_filter_amended_witness :
    uIpLink.domain = uIpBase.domain ∧
      set_fragment_none uIpLink ∈ links_to_visit joinDemo uIpBase ["http://10.0.0.1/x"] ∧
      (uAplain.domain = uNomain.domain ↔ uAplain.host = uNomain.host) :=
  ⟨c4_domain_filter_amended.1 joinDemo uIpBase ["http://10.0.0.1/x"] uIpLink (by decide),
    c4_domain_filter_amended.2.1 joinDemo uIpBase "http://10.0.0.1/x" uIpLink (by decide)
      (by decide),
    c4_domain_filter_amended.2.2 uAplain uNomain "x.test" "x.test" (by decide) (by decide)⟩

/-! ## Unfolding equations for the traversal -/

theorem crawlG_zero (env : Env) (max_depth : Nat) (u : Url) (v : Finset String) (d : Nat) :
    crawlG env max_depth 0 u v d = (v, []) :=
  rfl

theorem crawlG_succ_depth (env : Env) (max_depth g : Nat) (u : Url) (v : Finset String)
    (d : Nat) (h : max_depth < d) : crawlG env max_depth (g + 1) u v d = (v, []) := by
  simp only [crawlG]
  rw [if_pos h]

theorem crawlG_succ_mem (env : Env) (max_depth g : Nat) (u : Url) (v : Finset String)
    (d : Nat) (h : ¬ max_depth < d) (hm : urlToString u ∈ v) :
    crawlG env max_depth (g + 1) u v d = (v, []) := by
  simp only [crawlG]
  rw [if_neg h, if_pos hm]

theorem crawlG_succ_transport (env : Env) (max_depth g : Nat) (u : Url) (v : Finset String)
    (d : Nat) (h : ¬ max_depth < d) (hm : urlToString u ∉ v)
    (hf : env.fetch (urlToString u) = .transportError) :
    crawlG env max_depth (g + 1) u v d =
      (insert (urlToString u) v, [.fetched u d, .fetchFailed u]) := by
  simp only [crawlG]
  rw [if_neg h, if_neg hm, hf]

theorem crawlG_succ_status_fail (env : Env) (max_depth g : Nat) (u : Url) (v : Finset String)
    (d : Nat) (st : Nat) (body : Doc) (h : ¬ max_depth < d) (hm : urlToString u ∉ v)
    (hf : env.fetch (urlToString u) = .response st body) (hs : is_success st = false) :
    crawlG env max_depth (g + 1) u v d =
      (insert (urlToString u) v, [.fetched u d, .fetchFailed u]) := by
  simp only [crawlG]
  rw [if_neg h, if_neg hm, hf]
  simp [hs]

theorem crawlG_succ_success (env : Env) (max_depth g : Nat) (u : Url) (v : Finset String)
    (d : Nat) (st : Nat) (body : Doc) (h : ¬ max_depth < d) (hm : urlToString u ∉ v)
    (hf : env.fetch (urlToString u) = .response st body) (hs : is_success st = true) :
    crawlG env max_depth (g + 1) u v d =
      (let r := ((links_to_visit env.join u body.hrefs).foldl
          (fun acc l =>
            let r := crawlG env max_depth g l acc.1 (d + 1)
            (r.1, acc.2 ++ r.2))
          (insert (urlToString u) v, []));
        (r.1, .fetched u d :: (save_to_file u body ++ r.2))) := by
  simp only [crawlG]
  rw [if_neg h, if_neg hm, hf]
  simp [hs]

theorem crawl_eq_depth (env : Env) (max_depth : Nat) (u : Url) (v : Finset String) (d : Nat)
    (h : max_depth < d) : crawl env max_depth u v d = (v, []) := by
  unfold crawl
  have hg : max_depth + 1 - d = 0 := by omega
  rw [hg]
  rfl

theorem crawl_eq_mem (env : Env) (max_depth : Nat) (u : Url) (v : Finset String) (d : Nat)
    (hm : urlToString u ∈ v) : crawl env max_depth u v d = (v, []) := by
  unfold crawl
  cases hg : max_depth + 1 - d with
  | zero => rfl
  | succ g => exact crawlG_succ_mem env max_depth g u v d (by omega) hm

theorem crawl_eq_transport (env : Env) (max_depth : Nat) (u : Url) (v : Finset String)
    (d : Nat) (hd : d ≤ max_depth) (hm : urlToString u ∉ v)
    (hf : env.fetch (urlToString u) = .transportError) :
    crawl env max_depth u v d = (insert (urlToString u) v, [.fetched u d, .fetchFailed u]) := by
  unfold crawl
  have hg : max_depth + 1 - d = (max_depth - d) + 1 := by omega
  rw [hg]
  exact crawlG_succ_transport env max_depth (max_depth - d) u v d (by omega) hm hf

theorem crawl_eq_status_fail (env : Env) (max_depth : Nat) (u : Url) (v : Finset String)
    (d : Nat) (st : Nat) (body : Doc) (hd : d ≤ max_depth) (hm : urlToString u ∉ v)
    (hf : env.fetch (urlToString u) = .response st body) (hs : is_success st = false) :
    crawl env max_depth u v d = (insert (urlToString u) v, [.fetched u d, .fetchFailed u]) := by
  unfold crawl
  have hg : max_depth + 1 - d = (max_depth - d) + 1 := by omega
  rw [hg]
  exact crawlG_succ_status_fail env max_depth (max_depth - d) u v d st body (by omega) hm hf hs

theorem crawl_eq_success (env : Env) (max_depth : Nat) (u : Url) (v : Finset String)
    (d : Nat) (st : Nat) (body : Doc) (hd : d ≤ max_depth) (hm : urlToString u ∉ v)
    (hf : env.fetch (urlToString u) = .response st body) (hs : is_success st = true) :
    crawl env max_depth u v d =
      (let p := parse_links env max_depth u body (insert (urlToString u) v) d;
        (p.1, .fetched u d :: (save_to_file u body ++ p.2))) := by
  have hg : max_depth + 1 - d = (max_depth - d) + 1 := by omega
  conv_lhs => rw [crawl, hg]
  rw [crawlG_succ_success env max_depth (max_depth - d) u v d st body (by omega) hm hf hs]
  simp only [parse_links, crawl, Nat.add_sub_add_right]

/-! ## Trace facts -/

theorem fetchedStrings_append (e1 e2 : List Event) :
    fetchedStrings (e1 ++ e2) = fetchedStrings e1 ++ fetchedStrings e2 :=
  List.filterMap_append e1 e2 _

theorem fetchedStrings_save (u : Url) (body : Doc) :
    fetchedStrings (save_to_file u body) = [] := by
  cases hb : body.main_inner <;> simp [save_to_file, hb, fetchedStrings]

theorem mem_save_to_file {u : Url} {body : Doc} {e : Event} (he : e ∈ save_to_file u body) :
    ∃ k c, e = Event.recorded u k c := by
  cases hb : body.main_inner with
  | none => rw [save_to_file, hb] at he; exact absurd he (by simp)
  | some content =>
    rw [save_to_file, hb] at he
    simp only [List.mem_singleton] at he
    exact ⟨_, _, he⟩

theorem EvProps_nil (max_depth : Nat) (v0 vf : Finset String) : EvProps max_depth v0 vf [] := by
  refine ⟨by simp [fetchedStrings], by simp [fetchedStrings], by simp, by simp⟩

theorem EvProps_append {max_depth : Nat} {v0 v1 v2 : Finset String} {e1 e2 : List Event}
    (h01 : v0 ⊆ v1) (h12 : v1 ⊆ v2) (hp1 : EvProps max_depth v0 v1 e1)
    (hp2 : EvProps max_depth v1 v2 e2) : EvProps max_depth v0 v2 (e1 ++ e2) := by
  obtain ⟨n1, m1, d1, r1⟩ := hp1
  obtain ⟨n2, m2, d2, r2⟩ := hp2
  refine ⟨?_, ?_, ?_, ?_⟩
  · rw [fetchedStrings_append]
    exact n1.append n2 (fun s hs1 hs2 => (m2 s hs2).2 (m1 s hs1).1)
  · rw [fetchedStrings_append]
    intro s hs
    rcases List.mem_append.mp hs with h | h
    · exact ⟨h12 (m1 s h).1, (m1 s h).2⟩
    · exact ⟨(m2 s h).1, fun hv => (m2 s h).2 (h01 hv)⟩
  · intro u d hd
    rcases List.mem_append.mp hd with h | h
    · exact d1 u d h
    · exact d2 u d h
  · intro u k c hc
    rcases List.mem_append.mp hc with h | h
    · exact r1 u k c h
    · exact fun hv => r2 u k c h (h01 hv)

theorem foldl_crawl_inv {max_depth : Nat} (step : Url → Finset String → Finset String × List Event)
    (hstep : ∀ l v, CrawlInv max_depth v (step l v)) :
    ∀ (links : List Url) (v0 : Finset String) (e0 : List Event),
      ∃ vf enew,
        links.foldl (fun acc l => ((step l acc.1).1, acc.2 ++ (step l acc.1).2)) (v0, e0) =
            (vf, e0 ++ enew) ∧
          v0 ⊆ vf ∧ EvProps max_depth v0 vf enew := by
  intro links
  induction links with
  | nil =>
    intro v0 e0
    exact ⟨v0, [], by simp, Finset.Subset.refl v0, EvProps_nil max_depth v0 v0⟩
  | cons l ls ih =>
    intro v0 e0
    obtain ⟨vf, enew2, heq, hsub, hprops⟩ := ih (step l v0).1 (e0 ++ (step l v0).2)
    refine ⟨vf, (step l v0).2 ++ enew2, ?_, (hstep l v0).1.trans hsub, ?_⟩
    · simpa [List.append_assoc] using heq
    · exact EvProps_append (hstep l v0).1 hsub (hstep l v0).2 hprops

theorem crawlG_inv (env : Env) (max_depth : Nat) :
    ∀ (gas : Nat) (u : Url) (v : Finset String) (d : Nat),
      CrawlInv max_depth v (crawlG env max_depth gas u v d) := by
  intro gas
  induction gas with
  | zero =>
    intro u v d
    exact ⟨Finset.Subset.refl v, EvProps_nil max_depth v v⟩
  | succ g ih =>
    intro u v d
    by_cases hd : max_depth < d
    · rw [crawlG_succ_depth env max_depth g u v d hd]
      exact ⟨Finset.Subset.refl v, EvProps_nil max_depth v v⟩
    by_cases hm : urlToString u ∈ v
    · rw [crawlG_succ_mem env max_depth g u v d hd hm]
      exact ⟨Finset.Subset.refl v, EvProps_nil max_depth v v⟩
    have hfail : CrawlInv max_depth v
        (insert (urlToString u) v, [Event.fetched u d, Event.fetchFailed u]) := by
      refine ⟨Finset.subset_insert _ v, ?_, ?_, ?_, ?_⟩
      · simp [fetchedStrings]
      · intro s hs
        simp only [fetchedStrings, List.filterMap] at hs
        simp only [List.mem_singleton] at hs
        subst hs
        exact ⟨Finset.mem_insert_self _ v, hm⟩
      · intro u' d' hd'
        simp only [List.mem_cons, List.not_mem_nil, or_false] at hd'
        rcases hd' with h | h
        · cases h; omega
        · cases h
      · intro u' k c hc
        simp only [List.mem_cons, List.not_mem_nil, or_false] at hc
        rcases hc with h | h <;> cases h
    cases hf : env.fetch (urlToString u) with
    | transportError =>
      rw [crawlG_succ_transport env max_depth g u v d hd hm hf]
      exact hfail
    | response st body =>
      cases hs : is_success st with
      | false =>
        rw [crawlG_succ_status_fail env max_depth g u v d st body hd hm hf hs]
        exact hfail
      | true =>
        rw [crawlG_succ_success env max_depth g u v d st body hd hm hf hs]
        obtain ⟨vf, enew, heq, hsub, hprops⟩ :=
          foldl_crawl_inv (fun l w => crawlG env max_depth g l w (d + 1))
            (fun l w => ih l w (d + 1)) (links_to_visit env.join u body.hrefs)
            (insert (urlToString u) v) []
        dsimp only
        rw [heq]
        dsimp only
        simp only [List.nil_append]
        obtain ⟨hnd, hmem, hdep, hrec⟩ := hprops
        refine ⟨(Finset.subset_insert _ v).trans hsub, ?_, ?_, ?_, ?_⟩
        · simp only [fetchedStrings, List.filterMap_cons, fetchedStrings_append]
          rw [show (List.filterMap _ (save_to_file u body ++ enew) : List String)
            = fetchedStrings (save_to_file u body ++ enew) from rfl]
          rw [fetchedStrings_append, fetchedStrings_save, List.nil_append]
          refine List.Nodup.cons ?_ hnd
          intro hmem'
          exact (hmem _ hmem').2 (Finset.mem_insert_self _ v)
        · intro s hs
          simp only [fetchedStrings, List.filterMap_cons] at hs
          rw [show (List.filterMap _ (save_to_file u body ++ enew) : List String)
            = fetchedStrings (save_to_file u body ++ enew) from rfl] at hs
          rw [fetchedStrings_append, fetchedStrings_save, List.nil_append] at hs
          simp only [List.mem_cons] at hs
          rcases hs with h | h
          · subst h
            exact ⟨hsub (Finset.mem_insert_self _ v), hm⟩
          · exact ⟨(hmem s h).1, fun hv => (hmem s h).2 (Finset.mem_insert_of_mem hv)⟩
        · intro u' d' hd'
          simp only [List.mem_cons, List.mem_append] at hd'
          rcases hd' with h | h | h
          · cases h; omega
          · obtain ⟨k, c, hk⟩ := mem_save_to_file h
            cases hk
          · exact hdep u' d' h
        · intro u' k c hc
          simp only [List.mem_cons, List.mem_append] at hc
          rcases hc with h | h | h
          · cases h
          · obtain ⟨k', c', hk⟩ := mem_save_to_file h
            cases hk
            exact hm
          · exact fun hv => hrec u' k c h (Finset.mem_insert_of_mem hv)

theorem crawl_inv (env : Env) (max_depth : Nat) (u : Url) (v : Finset String) (d : Nat) :
    CrawlInv max_depth v (crawl env max_depth u v d) :=
  crawlG_inv env max_depth _ u v d

theorem parse_links_inv (env : Env) (max_depth : Nat) (base : Url) (body : Doc)
    (v : Finset String) (d : Nat) :
    v ⊆ (parse_links env max_depth base body v d).1 ∧
      EvProps max_depth v (parse_links env max_depth base body v d).1
        (parse_links env max_depth base body v d).2 := by
  obtain ⟨vf, enew, heq, hsub, hprops⟩ :=
    foldl_crawl_inv (fun l w => crawl env max_depth l w (d + 1))
      (fun l w => crawl_inv env max_depth l w (d + 1))
      (links_to_visit env.join base body.hrefs) v []
  have hp : parse_links env max_depth base body v d = (vf, [] ++ enew) := heq
  rw [hp]
  simpa using ⟨hsub, hprops⟩

theorem seedLoop_inv (env : Env) (max_depth : Nat) :
    ∀ (ss : List String) (v : Finset String),
      v ⊆ (seedLoop env max_depth ss v).1 ∧
        EvProps max_depth v (seedLoop env max_depth ss v).1 (seedLoop env max_depth ss v).2 := by
  intro ss
  induction ss with
  | nil =>
    intro v
    exact ⟨Finset.Subset.refl v, EvProps_nil max_depth v v⟩
  | cons s ss ih =>
    intro v
    cases hp : env.parseUrl s with
    | none =>
      simp only [seedLoop, hp]
      exact ⟨Finset.Subset.refl v, EvProps_nil max_depth v v⟩
    | some u =>
      have h1 := crawl_inv env max_depth u v 0
      have h2 := ih (crawl env max_depth u v 0).1
      simp only [seedLoop, hp]
      exact ⟨h1.1.trans h2.1, EvProps_append h1.1 h2.1 h1.2 h2.2⟩

theorem mainRun_inv (env : Env) (start_urls : List String) (max_depth : Nat) :
    EvProps max_depth ∅ (mainRun env start_urls max_depth).1 (mainRun env start_urls max_depth).2 :=
  (seedLoop_inv env max_depth (seed_tasks start_urls) ∅).2

theorem urlToString_fragment_length (u : Url) (f : String) (hf : u.fragment = some f) :
    (urlToString u).length = (urlToString (set_fragment_none u)).length + 1 + f.length := by
  simp [urlToString, set_fragment_none, hf, String.length_append,
    show ("#" : String).length = 1 from rfl]
  omega

/-- C1 as stated is false on the code: the visited set stores the exact
serialization, and seed addresses are not fragment-stripped, so two seed
tasks whose canonical (fragment-stripped) forms are equal both proceed to
the fetch step when one of them carries a fragment. -/
theorem c1_counterexample :
    (mainRun envDemo ["https://x.test/a#f", "https://x.test/a"] 5).2 =
        [Event.fetched uAfrag 0, Event.fetchFailed uAfrag,
          Event.fetched uAplain 0, Event.fetchFailed uAplain] ∧
      urlToString (set_fragment_none uAfrag) = urlToString (set_fragment_none uAplain) ∧
      urlToString uAfrag ≠ urlToString uAplain := by
  refine ⟨by decide, by decide, by decide⟩

/-- C1 amended: no exact address string is ever fetched twice in a run —
the membership check and the insertion of the serialization happen before
any fetch, so the fetched serializations are pairwise distinct and all
end up in the visited set.  (Equality of canonical, fragment-stripped
forms only coincides with this for fragment-free addresses; discovered
links are always fragment-stripped, but seeds are not.) -/
theorem c1_visited_set_guard (env : Env) (start_urls : List String) (max_depth : Nat) :
    (fetchedStrings (mainRun env start_urls max_depth).2).Nodup ∧
      ∀ s ∈ fetchedStrings (mainRun env start_urls max_depth).2,
        s ∈ (mainRun env start_urls max_depth).1 := by
  have h := mainRun_inv env start_urls max_depth
  exact ⟨h.1, fun s hs => (h.2.1 s hs).1⟩

/-- Witness for C1's amended statement on a concrete run. -/
theorem c1_visited_set_guard_witness :
    (fetchedStrings (mainRun envDemo ["https://x.test/a"] 5).2).Nodup ∧
      "https://x.test/a" ∈ (mainRun envDemo ["https://x.test/a"] 5).1 := by
  have hfs : fetchedStrings (mainRun envDemo ["https://x.test/a"] 5).2 =
      ["https://x.test/a"] := by decide
  exact ⟨(c1_visited_set_guard envDemo ["https://x.test/a"] 5).1,
    (c1_visited_set_guard envDemo ["https://x.test/a"] 5).2 "https://x.test/a"
      (by rw [hfs]; exact List.mem_singleton_self _)⟩

/-- C2: a task whose depth exceeds `max_depth` returns before touching
the visited set and before fetching; no fetch in any run happens at a
depth beyond `max_depth`; and a successful task recurses through
`parse_links`, which crawls every extracted link at `depth + 1` (seeds
are crawled at depth 0 by `mainRun`). -/
theorem c2_depth_check (env : Env) (max_depth : Nat) :
    (∀ (u : Url) (v : Finset String) (d : Nat), max_depth < d →
        crawl env max_depth u v d = (v, [])) ∧
      (∀ (start_urls : List String) (u : Url) (d : Nat),
        Event.fetched u d ∈ (mainRun env start_urls max_depth).2 → d ≤ max_depth) ∧
      (∀ (u : Url) (v : Finset String) (d st : Nat) (body : Doc), d ≤ max_depth →
        urlToString u ∉ v → env.fetch (urlToString u) = .response st body →
        is_success st = true →
        crawl env max_depth u v d =
          (let p := parse_links env max_depth u body (insert (urlToString u) v) d;
            (p.1, .fetched u d :: (save_to_file u body ++ p.2)))) :=
  ⟨fun u v d h => crawl_eq_depth env max_depth u v d h,
    fun start_urls u d h => (mainRun_inv env start_urls max_depth).2.2.1 u d h,
    fun u v d st body hd hm hf hs => crawl_eq_success env max_depth u v d st body hd hm hf hs⟩

/-- Witness for C2 at concrete depths and a concrete run. -/
theorem c2_depth_check_witness :
    crawl envDemo 0 uAplain ∅ 1 = (∅, []) ∧
      (0 : Nat) ≤ 0 ∧
      crawl envDemo 0 uNomain ∅ 0 =
        (let p := parse_links envDemo 0 uNomain docNomain (insert (urlToString uNomain) ∅) 0;
          (p.1, .fetched uNomain 0 :: (save_to_file uNomain docNomain ++ p.2))) := by
  have htr : Event.fetched uAplain 0 ∈ (mainRun envDemo ["https://x.test/a"] 0).2 := by
    have h : (mainRun envDemo ["https://x.test/a"] 0).2 =
        [Event.fetched uAplain 0, Event.fetchFailed uAplain] := by decide
    rw [h]
    exact List.mem_cons_self _ _
  refine ⟨(c2_depth_check envDemo 0).1 uAplain ∅ 1 (by decide),
    (c2_depth_check envDemo 0).2.1 ["https://x.test/a"] uAplain 0 htr,
    (c2_depth_check envDemo 0).2.2 uNomain ∅ 0 200 docNomain (by decide) (by decide)
      (by decide) (by decide)⟩

/-- C6: a fetch that fails (transport error or non-success status) ends
the task with exactly the fetch attempt and the failure in its trace — no
content is recorded, no link extraction happens, no child task is
created — and the address, claimed before the fetch, is in the returned
visited set; any later task for the same address string is skipped. -/
theorem c6_failed_fetch :
    (∀ (env : Env) (max_depth : Nat) (u : Url) (v : Finset String) (d : Nat),
        d ≤ max_depth → urlToString u ∉ v →
        (env.fetch (urlToString u) = .transportError ∨
          ∃ st body, env.fetch (urlToString u) = .response st body ∧ is_success st = false) →
        crawl env max_depth u v d =
          (insert (urlToString u) v, [.fetched u d, .fetchFailed u])) ∧
      ∀ (env : Env) (max_depth : Nat) (u : Url) (v : Finset String) (d : Nat),
        urlToString u ∈ v → crawl env max_depth u v d = (v, []) := by
  constructor
  · intro env max_depth u v d hd hm hfail
    rcases hfail with hf | ⟨st, body, hf, hs⟩
    · exact crawl_eq_transport env max_depth u v d hd hm hf
    · exact crawl_eq_status_fail env max_depth u v d st body hd hm hf hs
  · intro env max_depth u v d hm
    exact crawl_eq_mem env max_depth u v d hm

/-- Witness for C6 at a 404 page and at an already-claimed address. -/
theorem c6_failed_fetch_witness :
    crawl envDemo 0 uFail ∅ 0 =
        (insert (urlToString uFail) ∅, [.fetched uFail 0, .fetchFailed uFail]) ∧
      crawl envDemo 0 uFail {"https://x.test/fail"} 0 = ({"https://x.test/fail"}, []) :=
  ⟨c6_failed_fetch.1 envDemo 0 uFail ∅ 0 (by decide) (by decide)
      (Or.inr ⟨404, docNomain, by decide, by decide⟩),
    c6_failed_fetch.2 envDemo 0 uFail {"https://x.test/fail"} 0 (by decide)⟩

/-- C8: a fetched document without a `<main>` region records nothing
(`save_to_file` performs no append and raises no error), and the rest of
the task — link extraction and recursion — is unaffected. -/
theorem c8_missing_main :
    (∀ (u : Url) (doc : Doc), doc.main_inner = none → save_to_file u doc = []) ∧
      ∀ (env : Env) (max_depth : Nat) (u : Url) (v : Finset String) (d st : Nat) (body : Doc),
        d ≤ max_depth → urlToString u ∉ v →
        env.fetch (urlToString u) = .response st body → is_success st = true →
        body.main_inner = none →
        crawl env max_depth u v d =
            (let p := parse_links env max_depth u body (insert (urlToString u) v) d;
              (p.1, .fetched u d :: p.2)) ∧
          ∀ k c, Event.recorded u k c ∉ (crawl env max_depth u v d).2 := by
  have hsave : ∀ (u : Url) (doc : Doc), doc.main_inner = none → save_to_file u doc = [] := by
    intro u doc hdoc
    rw [save_to_file, hdoc]
  refine ⟨hsave, ?_⟩
  intro env max_depth u v d st body hd hm hf hs hb
  have heq := crawl_eq_success env max_depth u v d st body hd hm hf hs
  rw [hsave u body hb] at heq
  simp only [List.nil_append] at heq
  refine ⟨heq, ?_⟩
  intro k c hkc
  rw [heq] at hkc
  simp only [List.mem_cons] at hkc
  rcases hkc with h | h
  · cases h
  · exact (parse_links_inv env max_depth u body (insert (urlToString u) v) d).2.2.2.2 u k c h
      (Finset.mem_insert_self _ _)

/-- Witness for C8 at the `<main>`-less page `https://x.test/nomain`. -/
theorem c8_missing_main_witness :
    save_to_file uNomain docNomain = [] ∧
      crawl envDemo 0 uNomain ∅ 0 =
        (let p := parse_links envDemo 0 uNomain docNomain (insert (urlToString uNomain) ∅) 0;
          (p.1, .fetched uNomain 0 :: p.2)) ∧
      Event.recorded uNomain "k" "c" ∉ (crawl envDemo 0 uNomain ∅ 0).2 := by
  have h := c8_missing_main.2 envDemo 0 uNomain ∅ 0 200 docNomain (by decide) (by decide)
    (by decide) (by decide) (by decide)
  exact ⟨c8_missing_main.1 uNomain docNomain (by decide), h.1, h.2 "k" "c"⟩

/-- C9: seed URLs are claimed with their fragment intact — `main` parses
the seed and `crawl` inserts the full serialization before fetching — and
that serialization differs from the fragment-stripped canonical form of
the same page. -/
theorem c9_seed_fragment (env : Env) (max_depth : Nat) (u : Url) (v : Finset String) (d : Nat)
    (f : String) (hfrag : u.fragment = some f) (hd : d ≤ max_depth)
    (hm : urlToString u ∉ v) :
    urlToString u ∈ (crawl env max_depth u v d).1 ∧
      urlToString u ≠ urlToString (set_fragment_none u) := by
  constructor
  · cases hf : env.fetch (urlToString u) with
    | transportError =>
      rw [crawl_eq_transport env max_depth u v d hd hm hf]
      exact Finset.mem_insert_self _ _
    | response st body =>
      cases hs : is_success st with
      | false =>
        rw [crawl_eq_status_fail env max_depth u v d st body hd hm hf hs]
        exact Finset.mem_insert_self _ _
      | true =>
        rw [crawl_eq_success env max_depth u v d st body hd hm hf hs]
        exact (parse_links_inv env max_depth u body (insert (urlToString u) v) d).1
          (Finset.mem_insert_self _ _)
  · intro heq
    have hlen := congrArg String.length heq
    rw [urlToString_fragment_length u f hfrag] at hlen
    omega

/-- Witness for C9 at the seed `https://x.test/a#f`. -/
theorem c9_seed_fragment_witness :
    urlToString uAfrag ∈ (crawl envDemo 5 uAfrag ∅ 0).1 ∧
      urlToString uAfrag ≠ urlToString (set_fragment_none uAfrag) :=
  c9_seed_fragment envDemo 5 uAfrag ∅ 0 "f" (by decide) (by decide) (by decide)

/-- C7 as stated is false on the code: `start_urls.dedup()` removes only
adjacent duplicates (`start_urls.sort()` is commented out in main.rs line
64), so a seed string repeated at non-adjacent positions yields two
depth-0 tasks. -/
theorem c7_counterexample :
    (seed_tasks ["https://x.test/a", "https://x.test/b", "https://x.test/a"]).countP
      (fun s => s == "https://x.test/a") = 2 := by
  decide

/-- C7 amended: only adjacent duplicate seed strings are removed before
the depth-0 tasks are created — the task list never repeats a seed in
adjacent positions and is a subsequence of the configured list, but a
string repeated at non-adjacent positions produces one task per
occurrence (the visited set still prevents a second fetch). -/
theorem c7_seed_dedup_amended :
    (∀ l : List String, List.Chain' (fun a b => a ≠ b) (seed_tasks l) ∧
        List.Sublist (seed_tasks l) l) ∧
      seed_tasks ["https://x.test/a", "https://x.test/a", "https://x.test/b",
          "https://x.test/a"] =
        ["https://x.test/a", "https://x.test/b", "https://x.test/a"] := by
  constructor
  · intro l
    constructor
    · have h := dedupKeyed_chain id l
      simpa [seed_tasks, dedup] using h
    · have h := dedupKeyed_sublist id l
      simpa [seed_tasks, dedup] using h
  · decide

/-! ## Bucket-key segment counting (for C3) -/

theorem splitChar_ne_nil (sep : Char) : ∀ l : List Char, splitChar sep l ≠ [] := by
  intro l
  cases l with
  | nil => simp [splitChar]
  | cons c cs =>
    simp only [splitChar]
    by_cases hc : c = sep
    · rw [if_pos hc]
      simp
    · rw [if_neg hc]
      cases h : splitChar sep cs <;> simp

theorem mem_splitChar_not_sep (sep : Char) :
    ∀ (l : List Char) (piece : List Char), piece ∈ splitChar sep l → sep ∉ piece := by
  intro l
  induction l with
  | nil =>
    intro piece h
    simp only [splitChar, List.mem_singleton] at h
    subst h
    simp
  | cons c cs ih =>
    intro piece h
    simp only [splitChar] at h
    by_cases hc : c = sep
    · rw [if_pos hc] at h
      rcases List.mem_cons.mp h with h1 | h1
      · subst h1
        simp
      · exact ih piece h1
    · rw [if_neg hc] at h
      cases hsp : splitChar sep cs with
      | nil => exact absurd hsp (splitChar_ne_nil sep cs)
      | cons s ss =>
        rw [hsp] at h
        rcases List.mem_cons.mp h with h1 | h1
        · subst h1
          intro hmem
          rcases List.mem_cons.mp hmem with h2 | h2
          · exact hc h2.symm
          · exact ih s (by rw [hsp]; exact List.mem_cons_self _ _) h2
        · exact ih piece (by rw [hsp]; exact List.mem_cons_of_mem _ h1)

theorem countP_eq_zero_of_not_mem {s : List Char} (h : ('_' : Char) ∉ s) :
    s.countP (fun c => c == '_') = 0 := by
  rw [List.countP_eq_zero]
  intro a ha hb
  rw [beq_iff_eq] at hb
  exact h (hb ▸ ha)

theorem countP_joinUnderscore :
    ∀ segs : List (List Char), (∀ seg ∈ segs, ('_' : Char) ∉ seg) →
      (joinUnderscore segs).countP (fun c => c == '_') = segs.length - 1 := by
  intro segs
  induction segs with
  | nil =>
    intro _
    simp [joinUnderscore]
  | cons s rest ih =>
    intro hseg
    cases rest with
    | nil =>
      show (joinUnderscore [s]).countP (fun c => c == '_') = 0
      rw [joinUnderscore]
      exact countP_eq_zero_of_not_mem (hseg s (List.mem_cons_self _ _))
    | cons s2 rest2 =>
      rw [joinUnderscore, List.countP_append, List.countP_cons]
      rw [countP_eq_zero_of_not_mem (hseg s (List.mem_cons_self _ _))]
      rw [ih (fun seg h => hseg seg (List.mem_cons_of_mem _ h))]
      simp

theorem url_segments_underscore_free (s : String) :
    ∀ seg ∈ url_segments s, ('_' : Char) ∉ seg := by
  intro seg hseg
  exact mem_splitChar_not_sep '_' (raw_filename s) seg (List.mem_of_mem_filter hseg)

theorem countP_save_filename (s : String) (h3 : 3 ≤ (url_segments s).length) :
    (save_filename s).data.countP (fun c => c == '_') = 2 := by
  unfold save_filename
  by_cases hle : (url_segments s).length ≤ MAX_SEGMENTS
  · rw [if_pos hle]
    show (joinUnderscore (url_segments s)).countP (fun c => c == '_') = 2
    rw [countP_joinUnderscore (url_segments s) (url_segments_underscore_free s)]
    have hms : MAX_SEGMENTS = 3 := rfl
    omega
  · rw [if_neg hle]
    show (joinUnderscore ((url_segments s).take MAX_SEGMENTS)).countP (fun c => c == '_') = 2
    rw [countP_joinUnderscore _
      (fun seg h => url_segments_underscore_free s seg (List.take_subset _ _ h))]
    rw [List.length_take]
    have hms : MAX_SEGMENTS = 3 := rfl
    omega

/-- C3 as stated is false on the code: `raw_filename`'s cleanup keeps the
host as a leading segment, so `https://a.example/p/q` already has
`MAX_SEGMENTS = 3` segments (`a.example`, `p`, `q`) and its key coincides
with the truncated key of every deeper path below `/p/q` — here a path
with 3 further segments. -/
theorem c3_counterexample :
    save_filename "https://a.example/p/q" = save_filename "https://a.example/p/q/r/s/t" ∧
      save_filename "https://a.example/p/q" = "a.example_p_q" := by
  exact ⟨by decide, by decide⟩

/-- C3 amended: the key function is deterministic;
`https://a.example/p/q/r/s` and `https://a.example/p/q/r/t` are merged
into one key; but because the host counts as a segment,
`https://a.example/p/q` cleans up to exactly 3 segments and shares its
key with deeper paths — the distinctness instead holds one level up: the
key of `https://a.example/p` (2 segments) differs from the key of every
address whose cleaned form has 3 or more segments. -/
theorem c3_bucket_key_amended :
    save_filename "https://a.example/p/q/r/s" = save_filename "https://a.example/p/q/r/t" ∧
      save_filename "https://a.example/p/q" = "a.example_p_q" ∧
      save_filename "https://a.example/p" = "a.example_p" ∧
      ∀ s : String, 3 ≤ (url_segments s).length →
        save_filename "https://a.example/p" ≠ save_filename s := by
  refine ⟨by decide, by decide, by decide, ?_⟩
  intro s h3 heq
  have h1 : (save_filename "https://a.example/p").data.countP (fun c => c == '_') = 1 := by
    decide
  rw [heq, countP_save_filename s h3] at h1
  omega

/-- Witness for C3's amended distinctness at a 3-segment-plus address. -/
theorem c3_bucket_key_amended_witness :
    save_filename "https://a.example/p" ≠ save_filename "https://a.example/p/q/r" :=
  c3_bucket_key_amended.2.2.2 "https://a.example/p/q/r" (by decide)

/-! ## `str::replace` removes non-leading occurrences too (for C10) -/

theorem replaceAllFuel_nil (pat repl : List Char) :
    ∀ f : Nat, replaceAllFuel pat repl f [] = [] := by
  intro f
  cases f <;> rfl

theorem replaceAllFuel_congr (pat repl : List Char) :
    ∀ (f1 f2 : Nat) (text : List Char), text.length ≤ f1 → text.length ≤ f2 →
      replaceAllFuel pat repl f1 text = replaceAllFuel pat repl f2 text := by
  intro f1
  induction f1 with
  | zero =>
    intro f2 text h1 _
    have htext : text = [] := List.eq_nil_of_length_eq_zero (by omega)
    subst htext
    rw [replaceAllFuel_nil, replaceAllFuel_nil]
  | succ g1 ih =>
    intro f2 text h1 h2
    cases text with
    | nil => rw [replaceAllFuel_nil, replaceAllFuel_nil]
    | cons c cs =>
      cases f2 with
      | zero =>
        exact absurd h2 (by simp)
      | succ g2 =>
        simp only [replaceAllFuel]
        by_cases hp : pat ≠ [] ∧ pat.isPrefixOf (c :: cs)
        · rw [if_pos hp, if_pos hp]
          congr 1
          have hplen : 1 ≤ pat.length := List.length_pos.mpr hp.1
          apply ih
          · simp only [List.length_drop, List.length_cons]
            simp only [List.length_cons] at h1
            omega
          · simp only [List.length_drop, List.length_cons]
            simp only [List.length_cons] at h2
            omega
        · rw [if_neg hp, if_neg hp]
          congr 1
          apply ih
          · simp only [List.length_cons] at h1
            omega
          · simp only [List.length_cons] at h2
            omega

theorem isPrefixOf_append (l1 l2 : List Char) : l1.isPrefixOf (l1 ++ l2) = true := by
  induction l1 with
  | nil => simp [List.isPrefixOf]
  | cons a t ih => simp [List.isPrefixOf, ih]

theorem replaceAllFuel_succ_pos (pat repl : List Char) (g : Nat) (text : List Char)
    (hpat : pat ≠ []) (hpre : pat.isPrefixOf text = true) :
    replaceAllFuel pat repl (g + 1) text =
      repl ++ replaceAllFuel pat repl g (text.drop pat.length) := by
  cases text with
  | nil =>
    cases hp : pat with
    | nil => exact absurd hp hpat
    | cons a as =>
      rw [hp] at hpre
      simp [List.isPrefixOf] at hpre
  | cons c cs =>
    simp only [replaceAllFuel]
    rw [if_pos ⟨hpat, hpre⟩]

theorem replaceAllFuel_succ_neg (pat repl : List Char) (g : Nat) (c : Char) (cs : List Char)
    (hpre : ¬ pat.isPrefixOf (c :: cs) = true) :
    replaceAllFuel pat repl (g + 1) (c :: cs) = c :: replaceAllFuel pat repl g cs := by
  simp only [replaceAllFuel]
  rw [if_neg (fun h => hpre h.2)]

theorem replaceAll_emb (pat : List Char) (hpat : pat ≠ []) :
    ∀ (p : List Char) (q : List Char) (f : Nat), (p ++ pat ++ q).length ≤ f →
      (∀ i, i < p.length → pat.isPrefixOf ((p ++ pat ++ q).drop i) = false) →
      replaceAllFuel pat [] f (p ++ pat ++ q) = p ++ replaceAllFuel pat [] f q := by
  intro p
  induction p with
  | nil =>
    intro q f hf _
    have hplen : 1 ≤ pat.length := List.length_pos.mpr hpat
    cases f with
    | zero =>
      exfalso
      simp only [List.nil_append, List.length_append] at hf
      omega
    | succ g =>
      simp only [List.nil_append]
      rw [replaceAllFuel_succ_pos pat [] g (pat ++ q) hpat (isPrefixOf_append pat q)]
      rw [List.drop_left]
      simp only [List.nil_append]
      have hlen : pat.length + q.length ≤ g + 1 := by
        simpa [List.length_append] using hf
      apply replaceAllFuel_congr <;> omega
  | cons c p' ih =>
    intro q f hf hocc
    cases f with
    | zero =>
      exfalso
      simp only [List.cons_append, List.length_cons] at hf
      omega
    | succ g =>
      have h0 : pat.isPrefixOf ((c :: p' ++ pat ++ q).drop 0) = false := hocc 0 (by simp)
      simp only [List.drop_zero, List.cons_append] at h0
      simp only [List.cons_append]
      rw [replaceAllFuel_succ_neg pat [] g c (p' ++ pat ++ q)
        (by rw [h0]; exact Bool.false_ne_true)]
      have hocc' : ∀ i, i < p'.length → pat.isPrefixOf ((p' ++ pat ++ q).drop i) = false := by
        intro i hi
        have := hocc (i + 1) (by simpa using Nat.succ_lt_succ hi)
        simpa [List.cons_append, List.drop_succ_cons] using this
      rw [ih q g (by simp only [List.cons_append, List.length_cons] at hf; omega) hocc']
      have hq : replaceAllFuel pat [] g q = replaceAllFuel pat [] (g + 1) q := by
        apply replaceAllFuel_congr
        · simp only [List.cons_append, List.length_cons, List.length_append] at hf
          omega
        · simp only [List.length_append] at hf ⊢
          omega
      rw [hq]

/-- C10: `String::replace` is not anchored at the start of the string —
the bucket-key derivation deletes every occurrence of `https://` (and
`http://`), including occurrences embedded in the path or query.  The
general statement removes an occurrence sitting after an arbitrary prefix
`p` containing no earlier occurrence; the concrete instances run the full
`raw_filename` / `save_filename` pipeline on an address with an embedded
`https://` in its query. -/
theorem c10_embedded_scheme_removed :
    (∀ pat : List Char, pat ≠ [] → ∀ p q : List Char,
        (∀ i, i < p.length → pat.isPrefixOf ((p ++ pat ++ q).drop i) = false) →
        replaceAll pat [] (p ++ pat ++ q) = p ++ replaceAll pat [] q) ∧
      raw_filename "https://a.example/x?u=https://b.example/y" =
        "a.example_x_u_b.example_y".data ∧
      save_filename "https://a.example/x?u=https://b.example/y" = "a.example_x_u" := by
  refine ⟨?_, by decide, by decide⟩
  intro pat hpat p q hocc
  unfold replaceAll
  rw [replaceAll_emb pat hpat p q (p ++ pat ++ q).length (le_refl _) hocc]
  congr 1
  apply replaceAllFuel_congr
  · simp only [List.length_append]
    omega
  · exact le_refl _

/-- Witness for C10: an occurrence of `https://` after the prefix `u=` is
removed. -/
theorem c10_embedded_scheme_removed_witness :
    replaceAll httpsPat [] ("u=".data ++ httpsPat ++ "b".data) =
      "u=".data ++ replaceAll httpsPat [] "b".data :=
  c10_embedded_scheme_removed.1 httpsPat (by decide) "u=".data "b".data (by decide)

end Crawler
